import Mathlib

set_option maxHeartbeats 1000000
set_option maxRecDepth 16384

/-!
Shallow embedding of the `mnemonic-external` mnemonic codec core
(`src/error.rs`, `src/lib.rs`, `src/regular.rs`).

Modelling conventions: machine integers (`u8`, `u16`, `usize`) are `Nat`;
byte slices are `List Nat`; the `BitsHelper` bit buffer (`Vec<bool>`) is a
`List Bool`; fallible functions return `Except ErrorMnemonic`; a Rust
panic is modelled as `Option.none` on the functions that can panic.
The SHA-256 dependency (`sha2` crate, external to this repository) is an
explicit function parameter `hashByte` standing for `sha256_first_byte`;
the `AsWordList` trait is a structure of functions parameterised by the
word type `W`.
-/

def TOTAL_WORDS : Nat := 2048
def WORD_MAX_LEN : Nat := 8
def SEPARATOR_LEN : Nat := 1
def MAX_SEED_LEN : Nat := 24
def BITS_IN_BYTE : Nat := 8
def BITS_IN_U11 : Nat := 11

/-- The error enum of `src/error.rs`. -/
inductive ErrorMnemonic where
  | DamagedWord
  | InvalidChecksum
  | InvalidEntropy
  | InvalidWordNumber
  | NoWord
  | WordsNumber
deriving DecidableEq

/-- `Bits11(u16)` of `src/lib.rs`. -/
structure Bits11 where
  val : Nat
deriving DecidableEq

/-- `Bits11::bits`. -/
def Bits11.bits (b : Bits11) : Nat := b.val

/-- `Bits11::from` (named `fromU16` because `from` is a Lean keyword). -/
def Bits11.fromU16 (i : Nat) : Except ErrorMnemonic Bits11 :=
  if i < TOTAL_WORDS then .ok ⟨i⟩ else .error .InvalidWordNumber

/-- `MnemonicType` of `src/lib.rs`. -/
inductive MnemonicType where
  | Words12
  | Words15
  | Words18
  | Words21
  | Words24
deriving DecidableEq

/-- `MnemonicType::from` (named `fromLen`; `from` is a Lean keyword). -/
def MnemonicType.fromLen (len : Nat) : Except ErrorMnemonic MnemonicType :=
  match len with
  | 12 => .ok .Words12
  | 15 => .ok .Words15
  | 18 => .ok .Words18
  | 21 => .ok .Words21
  | 24 => .ok .Words24
  | _ => .error .WordsNumber

/-- `MnemonicType::checksum_bits`. -/
def MnemonicType.checksum_bits : MnemonicType → Nat
  | .Words12 => 4
  | .Words15 => 5
  | .Words18 => 6
  | .Words21 => 7
  | .Words24 => 8

/-- `MnemonicType::entropy_bits`. -/
def MnemonicType.entropy_bits : MnemonicType → Nat
  | .Words12 => 128
  | .Words15 => 160
  | .Words18 => 192
  | .Words21 => 224
  | .Words24 => 256

/-- `MnemonicType::total_bits`. -/
def MnemonicType.total_bits (t : MnemonicType) : Nat :=
  t.entropy_bits + t.checksum_bits

/-- One bit of a byte, MSB first: the loop body of `BitsHelper::extend_from_byte`. -/
def byteBit (byte i : Nat) : Bool :=
  byte &&& (1 <<< (BITS_IN_BYTE - 1 - i)) != 0

/-- `BitsHelper::extend_from_byte`: appends the 8 bits of `byte`, MSB first. -/
def extend_from_byte (bits : List Bool) (byte : Nat) : List Bool :=
  bits ++ (List.range BITS_IN_BYTE).map (byteBit byte)

/-- `BitsHelper::extend_from_bits11`: appends the last 3 bits of the big-endian
high byte of the `u16`, then all 8 bits of the low byte. -/
def extend_from_bits11 (bits : List Bool) (b : Bits11) : List Bool :=
  (bits ++
      (List.range' (BITS_IN_BYTE - BITS_IN_U11 % BITS_IN_BYTE)
          (BITS_IN_U11 % BITS_IN_BYTE)).map (byteBit (b.val / 256 % 256))) ++
    (List.range BITS_IN_BYTE).map (byteBit (b.val % 256))

/-- The accumulator loop shared by the 11-bit packing in `from_entropy` and the
8-bit packing in `to_entropy`: `if *bit { acc |= 1 << (width - 1 - i) }`. -/
def chunkToNumAux (width : Nat) : List Bool → Nat → Nat → Nat
  | [], _, acc => acc
  | b :: rest, i, acc =>
      chunkToNumAux width rest (i + 1)
        (if b then acc ||| (1 <<< (width - 1 - i)) else acc)

/-- Value of a bit chunk read MSB-first into a `width`-bit accumulator. -/
def chunkToNum (width : Nat) (chunk : List Bool) : Nat :=
  chunkToNumAux width chunk 0 0

/-- Fuel-driven model of Rust's `slice::chunks_exact(k)`: full chunks only,
remainder dropped. -/
def chunksExactF (k : Nat) : Nat → List α → List (List α)
  | 0, _ => []
  | fuel + 1, l => if l.length < k then [] else l.take k :: chunksExactF k fuel (l.drop k)

/-- Rust's `chunks_exact(k)`. -/
def chunksExact (k : Nat) (l : List α) : List (List α) :=
  chunksExactF k l.length l

/-- Fuel-driven model of Rust's `slice::chunks(k)`: the final chunk may be
shorter than `k`. -/
def chunksF (k : Nat) : Nat → List α → List (List α)
  | 0, _ => []
  | fuel + 1, l => if l.isEmpty then [] else l.take k :: chunksF k fuel (l.drop k)

/-- Rust's `chunks(k)`. -/
def chunks (k : Nat) (l : List α) : List (List α) :=
  chunksF k l.length l

/-- `checksum` of `src/lib.rs`: `source >> (8 - bits)`. -/
def checksum (source bits : Nat) : Nat :=
  source >>> (BITS_IN_BYTE - bits)

/-- `WordSet` of `src/lib.rs`. -/
structure WordSet where
  bits11_set : List Bits11
deriving DecidableEq

/-- The `AsWordList` trait: `Word` is the associated word type, `as_ref` its
`AsRef<str>` view. -/
structure AsWordList (W : Type) where
  get_word : Bits11 → Except ErrorMnemonic W
  bits11_for_word : String → Except ErrorMnemonic Bits11
  as_ref : W → String

/-- `WordSet::from_entropy`. `hashByte` stands for `sha256_first_byte`. -/
def WordSet.from_entropy (hashByte : List Nat → Nat) (entropy : List Nat) :
    Except ErrorMnemonic WordSet :=
  if entropy.length < 16 ∨ entropy.length > 32 ∨ entropy.length % 4 ≠ 0 then
    .error .InvalidEntropy
  else
    let checksum_byte := hashByte entropy
    let entropy_bits := entropy.foldl extend_from_byte []
    let entropy_bits := extend_from_byte entropy_bits checksum_byte
    .ok ⟨(chunksExact BITS_IN_U11 entropy_bits).map (fun chunk => ⟨chunkToNum BITS_IN_U11 chunk⟩)⟩

/-- `WordSet::new`. -/
def WordSet.new : WordSet := ⟨[]⟩

/-- `WordSet::add_word` (the mutation is modelled by returning the new `WordSet`). -/
def WordSet.add_word (ws : WordSet) (word : String) (wordlist : AsWordList W) :
    Except ErrorMnemonic WordSet :=
  if ws.bits11_set.length < MAX_SEED_LEN then
    match wordlist.bits11_for_word word with
    | .error e => .error e
    | .ok bits11 => .ok ⟨ws.bits11_set ++ [bits11]⟩
  else
    .ok ws

/-- `WordSet::is_finalizable`. -/
def WordSet.is_finalizable (ws : WordSet) : Bool :=
  match MnemonicType.fromLen ws.bits11_set.length with
  | .ok _ => true
  | .error _ => false

/-- `WordSet::to_entropy`. The index access `entropy[entropy_len]` is modelled
with `getD`; for every length accepted by `MnemonicType::from` the byte list
has `entropy_len + 1` elements, so the default is never taken. -/
def WordSet.to_entropy (hashByte : List Nat → Nat) (ws : WordSet) :
    Except ErrorMnemonic (List Nat) :=
  match MnemonicType.fromLen ws.bits11_set.length with
  | .error e => .error e
  | .ok mnemonic_type =>
    let entropy_bits := ws.bits11_set.foldl extend_from_bits11 []
    let entropy := (chunks BITS_IN_BYTE entropy_bits).map (chunkToNum BITS_IN_BYTE)
    let entropy_len := mnemonic_type.entropy_bits / BITS_IN_BYTE
    let actual_checksum := checksum (entropy.getD entropy_len 0) mnemonic_type.checksum_bits
    let entropy := entropy.take entropy_len
    let checksum_byte := hashByte entropy
    let expected_checksum := checksum checksum_byte mnemonic_type.checksum_bits
    if actual_checksum ≠ expected_checksum then .error .InvalidChecksum else .ok entropy

/-- `WordSet::to_phrase`. The capacity hint
`len * (WORD_MAX_LEN + SEPARATOR_LEN) - SEPARATOR_LEN` is `usize` arithmetic:
when it underflows (empty set) the Rust code panics, modelled as `none`. -/
def WordSet.to_phrase (wordlist : AsWordList W) (ws : WordSet) :
    Option (Except ErrorMnemonic String) :=
  if ws.bits11_set.length * (WORD_MAX_LEN + SEPARATOR_LEN) < SEPARATOR_LEN then
    none
  else
    some (ws.bits11_set.foldlM
      (fun phrase bits11 =>
        (wordlist.get_word bits11).map
          (fun word =>
            (if phrase.isEmpty then phrase else phrase.push ' ') ++ wordlist.as_ref word))
      "")

/-- `InternalWordList::get_word` of `src/regular.rs`, parameterised by the
table (`WORDLIST_ENGLISH` itself is word-list data outside the core sources).
The unchecked indexing `WORDLIST_ENGLISH[word_order]` panics when out of
bounds, modelled as `none`. -/
def InternalWordList.get_word (wordlist_english : List String) (bits : Bits11) :
    Option (Except ErrorMnemonic String) :=
  let word_order := bits.bits
  if h : word_order < wordlist_english.length then
    some (.ok (wordlist_english.get ⟨word_order, h⟩))
  else
    none

/-- Entering a phrase word by word: folds `WordSet::add_word` over the words. -/
def addWords (wordlist : AsWordList W) (ws : WordSet) (words : List String) :
    Except ErrorMnemonic WordSet :=
  words.foldlM (fun s w => s.add_word w wordlist) ws

/-- Big-endian bit decomposition of a number, `w` bits, MSB first
(specification-side description of the packed bit stream). -/
def natBitsBE (w b : Nat) : List Bool :=
  (List.range w).map (fun i => b.testBit (w - 1 - i))

/-- Value of an MSB-first bit list (specification-side). -/
def valBE : List Bool → Nat
  | [] => 0
  | b :: l => b.toNat * 2 ^ l.length + valBE l

/-- Modelled from the spec: the word count 12/15/18/21/24 that §4.4 assigns to
each supported entropy byte length 16/20/24/28/32. -/
def wordCount : Nat → Nat
  | 16 => 12
  | 20 => 15
  | 24 => 18
  | 28 => 21
  | 32 => 24
  | _ => 0

/-- The spec's WordSet invariants (§3): at most 24 stored indices, every
stored index below 2048. -/
def WordSet.Inv (ws : WordSet) : Prop :=
  ws.bits11_set.length ≤ MAX_SEED_LEN ∧ ∀ b ∈ ws.bits11_set, b.val < TOTAL_WORDS

/-- A concrete word-list provider used to instantiate generic theorems: index
`n` is rendered as the word `aa…a` of length `n`, and looked up by length. -/
def unaryWordList : AsWordList String where
  get_word := fun b => .ok (String.mk (List.replicate b.val 'a'))
  bits11_for_word := fun s =>
    if s.length < TOTAL_WORDS then .ok ⟨s.length⟩ else .error .NoWord
  as_ref := id

/-- The byte regrouping that `to_entropy` performs before the checksum test
(steps 2 and 3 of spec §4.6): re-expand each stored index to 11 bits and
regroup into 8-bit bytes, the last byte possibly partial. -/
def regroupedBytes (ws : WordSet) : List Nat :=
  (chunks 8 (ws.bits11_set.foldl extend_from_bits11 [])).map (chunkToNum 8)

/-! ### Bit-level lemmas -/

theorem length_natBitsBE (w b : Nat) : (natBitsBE w b).length = w := by
  simp [natBitsBE]

theorem natBitsBE_succ (w b : Nat) :
    natBitsBE (w + 1) b = b.testBit w :: natBitsBE w b := by
  simp only [natBitsBE, List.range_succ_eq_map, List.map_cons, List.map_map]
  refine congrArg₂ _ (by simp) (List.map_congr_left ?_)
  intro i _
  show b.testBit (w + 1 - 1 - (i + 1)) = b.testBit (w - 1 - i)
  congr 1
  omega

theorem valBE_lt (l : List Bool) : valBE l < 2 ^ l.length := by
  induction l with
  | nil => simp [valBE]
  | cons b rest ih =>
    simp only [valBE, List.length_cons, pow_succ]
    cases b <;> simp [Bool.toNat] <;> omega

theorem toNat_testBit_div_mod (b w : Nat) : (b.testBit w).toNat = b / 2 ^ w % 2 := by
  rw [Nat.testBit_to_div_mod]
  rcases Nat.mod_two_eq_zero_or_one (b / 2 ^ w) with h | h <;> simp [h]

theorem valBE_natBitsBE (w b : Nat) : valBE (natBitsBE w b) = b % 2 ^ w := by
  induction w with
  | zero => simp [natBitsBE, valBE, Nat.mod_one]
  | succ w ih =>
    rw [natBitsBE_succ]
    simp only [valBE, length_natBitsBE, ih]
    rw [Nat.mod_pow_succ, toNat_testBit_div_mod]
    ring

theorem natBitsBE_congr_mod (w b b' : Nat) (h : b % 2 ^ w = b' % 2 ^ w) :
    natBitsBE w b = natBitsBE w b' := by
  refine List.map_congr_left ?_
  intro i hi
  rw [List.mem_range] at hi
  have hlt : w - 1 - i < w := by omega
  calc b.testBit (w - 1 - i)
      = (b % 2 ^ w).testBit (w - 1 - i) := by
        simp [Nat.testBit_mod_two_pow, hlt]
    _ = (b' % 2 ^ w).testBit (w - 1 - i) := by rw [h]
    _ = b'.testBit (w - 1 - i) := by simp [Nat.testBit_mod_two_pow, hlt]

theorem natBitsBE_valBE (l : List Bool) : natBitsBE l.length (valBE l) = l := by
  induction l with
  | nil => simp [natBitsBE, valBE]
  | cons b rest ih =>
    rw [List.length_cons, natBitsBE_succ]
    have hv : valBE (b :: rest) = b.toNat * 2 ^ rest.length + valBE rest := rfl
    have hbit : (valBE (b :: rest)).testBit rest.length = b := by
      rw [Nat.testBit_to_div_mod, hv]
      have hdiv : (b.toNat * 2 ^ rest.length + valBE rest) / 2 ^ rest.length = b.toNat := by
        rw [Nat.mul_comm, Nat.mul_add_div (Nat.two_pow_pos _),
          Nat.div_eq_of_lt (valBE_lt rest)]
        omega
      rw [hdiv]
      cases b <;> simp
    have hrest : natBitsBE rest.length (valBE (b :: rest)) = rest := by
      rw [natBitsBE_congr_mod rest.length (valBE (b :: rest)) (valBE rest)
        (by rw [hv, Nat.mul_comm, Nat.mul_add_mod]), ih]
    rw [hbit, hrest]

theorem byteBit_testBit (x i : Nat) : byteBit x i = x.testBit (7 - i) := by
  have h1 : (1 : Nat) <<< (BITS_IN_BYTE - 1 - i) = 2 ^ (7 - i) := by
    rw [Nat.shiftLeft_eq, Nat.one_mul]
    rfl
  rw [byteBit, h1, Nat.and_two_pow]
  cases hbit : x.testBit (7 - i)
  · simp [hbit]
  · simp only [hbit, Bool.toNat_true, Nat.one_mul, bne_iff_ne, ne_eq]
    exact (Nat.two_pow_pos (7 - i)).ne'

theorem map_byteBit_eq_natBitsBE (x : Nat) :
    (List.range BITS_IN_BYTE).map (byteBit x) = natBitsBE 8 x := by
  refine List.map_congr_left ?_
  intro i _
  rw [byteBit_testBit x i]

theorem extend_from_byte_eq (bits : List Bool) (x : Nat) :
    extend_from_byte bits x = bits ++ natBitsBE 8 x := by
  rw [extend_from_byte, map_byteBit_eq_natBitsBE]

theorem extend_from_bits11_eq (bits : List Bool) (b : Bits11) (h : b.val < 2048) :
    extend_from_bits11 bits b = bits ++ natBitsBE 11 b.val := by
  have h256 : (256 : Nat) = 2 ^ 8 := by norm_num
  have hhi : b.val / 256 % 256 = b.val / 256 := Nat.mod_eq_of_lt (by omega)
  have e1 : ∀ j, (b.val / 256).testBit j = b.val.testBit (8 + j) := by
    intro j
    rw [h256, ← Nat.shiftRight_eq_div_pow, Nat.testBit_shiftRight]
  have e2 : ∀ j, j < 8 → (b.val % 256).testBit j = b.val.testBit j := by
    intro j hj
    rw [h256, Nat.testBit_mod_two_pow]
    simp [hj]
  show (bits ++ [byteBit (b.val / 256 % 256) 5, byteBit (b.val / 256 % 256) 6,
      byteBit (b.val / 256 % 256) 7]) ++
      [byteBit (b.val % 256) 0, byteBit (b.val % 256) 1, byteBit (b.val % 256) 2,
        byteBit (b.val % 256) 3, byteBit (b.val % 256) 4, byteBit (b.val % 256) 5,
        byteBit (b.val % 256) 6, byteBit (b.val % 256) 7] =
    bits ++ [b.val.testBit 10, b.val.testBit 9, b.val.testBit 8, b.val.testBit 7,
      b.val.testBit 6, b.val.testBit 5, b.val.testBit 4, b.val.testBit 3,
      b.val.testBit 2, b.val.testBit 1, b.val.testBit 0]
  rw [List.append_assoc]
  congr 1
  simp [byteBit_testBit, hhi, e1, e2]

theorem chunkToNumAux_eq (width : Nat) (l : List Bool) :
    ∀ i acc : Nat, i + l.length ≤ width → acc % 2 ^ (width - i) = 0 →
      chunkToNumAux width l i acc = acc + valBE l * 2 ^ (width - i - l.length) := by
  induction l with
  | nil =>
    intro i acc _ _
    simp [chunkToNumAux, valBE]
  | cons b rest ih =>
    intro i acc hle hacc
    have hiw : i < width := by simp at hle; omega
    rw [chunkToNumAux]
    have hstep : (if b then acc ||| 1 <<< (width - 1 - i) else acc) =
        acc + b.toNat * 2 ^ (width - 1 - i) := by
      cases b
      · simp
      · rcases Nat.dvd_of_mod_eq_zero hacc with ⟨q, hq⟩
        have hlt : 2 ^ (width - 1 - i) < 2 ^ (width - i) :=
          Nat.pow_lt_pow_right (by norm_num) (by omega)
        simp only [if_true, Bool.toNat_true, Nat.one_mul, Nat.shiftLeft_eq]
        rw [hq, ← Nat.mul_add_lt_is_or hlt q]
    rw [hstep]
    have hmod : (acc + b.toNat * 2 ^ (width - 1 - i)) % 2 ^ (width - (i + 1)) = 0 := by
      have hsplit : width - i = (width - (i + 1)) + 1 := by omega
      have h2 : width - 1 - i = width - (i + 1) := by omega
      rcases Nat.dvd_of_mod_eq_zero hacc with ⟨q, hq⟩
      rw [hq, hsplit, h2, pow_succ]
      rcases Bool.toNat_le b with _
      have : 2 ^ (width - (i + 1)) * 2 * q + b.toNat * 2 ^ (width - (i + 1)) =
          2 ^ (width - (i + 1)) * (2 * q + b.toNat) := by ring
      rw [this, Nat.mul_mod_right]
    rw [ih (i + 1) _ (by simp at hle ⊢; omega) hmod]
    have hlen : i + (rest.length + 1) ≤ width := by simpa using hle
    have hexp1 : width - (i + 1) - rest.length = width - 1 - i - rest.length := by omega
    have hexp2 : width - i - (b :: rest).length = width - 1 - i - rest.length := by
      simp only [List.length_cons]; omega
    have hval : valBE (b :: rest) = b.toNat * 2 ^ rest.length + valBE rest := rfl
    rw [hexp1, hexp2, hval]
    have hpow : (2 : Nat) ^ (width - 1 - i) =
        2 ^ rest.length * 2 ^ (width - 1 - i - rest.length) := by
      rw [← pow_add]
      congr 1
      omega
    rw [hpow]
    ring

theorem chunkToNum_eq (width : Nat) (l : List Bool) (h : l.length ≤ width) :
    chunkToNum width l = valBE l * 2 ^ (width - l.length) := by
  rw [chunkToNum, chunkToNumAux_eq width l 0 0 (by omega) (by simp)]
  simp

theorem chunkToNum_full (width : Nat) (l : List Bool) (h : l.length = width) :
    chunkToNum width l = valBE l := by
  rw [chunkToNum_eq width l (by omega), h]
  simp

theorem chunkToNum_lt (width : Nat) (l : List Bool) (h : l.length ≤ width) :
    chunkToNum width l < 2 ^ width := by
  rw [chunkToNum_eq width l h]
  calc valBE l * 2 ^ (width - l.length) < 2 ^ l.length * 2 ^ (width - l.length) :=
        (Nat.mul_lt_mul_right (Nat.two_pow_pos _)).mpr (valBE_lt l)
    _ = 2 ^ width := by rw [← pow_add]; congr 1; omega

/-! ### Chunking lemmas -/

theorem chunksExactF_zero (k : Nat) (l : List α) : chunksExactF k 0 l = [] := rfl

theorem chunksExactF_succ (k fuel : Nat) (l : List α) :
    chunksExactF k (fuel + 1) l =
      if l.length < k then [] else l.take k :: chunksExactF k fuel (l.drop k) := rfl

theorem chunksExactF_fuel (k : Nat) (hk : 0 < k) :
    ∀ fuel₁ fuel₂ (l : List α), l.length ≤ fuel₁ → l.length ≤ fuel₂ →
      chunksExactF k fuel₁ l = chunksExactF k fuel₂ l := by
  intro fuel₁
  induction fuel₁ with
  | zero =>
    intro fuel₂ l h₁ _
    have hl : l.length = 0 := by omega
    cases fuel₂ with
    | zero => rfl
    | succ f =>
      rw [chunksExactF_zero, chunksExactF_succ, if_pos (by omega)]
  | succ f₁ ih =>
    intro fuel₂ l h₁ h₂
    cases fuel₂ with
    | zero =>
      have hl : l.length = 0 := by omega
      rw [chunksExactF_zero, chunksExactF_succ, if_pos (by omega)]
    | succ f₂ =>
      rw [chunksExactF_succ, chunksExactF_succ]
      by_cases h : l.length < k
      · rw [if_pos h, if_pos h]
      · rw [if_neg h, if_neg h]
        have hdrop : (l.drop k).length ≤ f₁ := by simp; omega
        have hdrop₂ : (l.drop k).length ≤ f₂ := by simp; omega
        rw [ih f₂ (l.drop k) hdrop hdrop₂]

theorem chunksExact_stop (k : Nat) (l : List α) (h : l.length < k) :
    chunksExact k l = [] := by
  rw [chunksExact]
  cases hl : l.length with
  | zero => rfl
  | succ n => rw [chunksExactF_succ, if_pos (by omega)]

theorem chunksExact_step (k : Nat) (hk : 0 < k) (l : List α) (h : k ≤ l.length) :
    chunksExact k l = l.take k :: chunksExact k (l.drop k) := by
  rw [chunksExact, chunksExact]
  cases hl : l.length with
  | zero => omega
  | succ n =>
    rw [chunksExactF_succ, if_neg (by omega)]
    congr 1
    exact chunksExactF_fuel k hk n (l.drop k).length (l.drop k) (by simp; omega) le_rfl

theorem chunksF_zero (k : Nat) (l : List α) : chunksF k 0 l = [] := rfl

theorem chunksF_succ (k fuel : Nat) (l : List α) :
    chunksF k (fuel + 1) l =
      if l.isEmpty then [] else l.take k :: chunksF k fuel (l.drop k) := rfl

theorem chunksF_fuel (k : Nat) (hk : 0 < k) :
    ∀ fuel₁ fuel₂ (l : List α), l.length ≤ fuel₁ → l.length ≤ fuel₂ →
      chunksF k fuel₁ l = chunksF k fuel₂ l := by
  intro fuel₁
  induction fuel₁ with
  | zero =>
    intro fuel₂ l h₁ _
    have hl : l = [] := List.eq_nil_of_length_eq_zero (by omega)
    cases fuel₂ with
    | zero => rfl
    | succ f => rw [chunksF_zero, chunksF_succ, hl]; rfl
  | succ f₁ ih =>
    intro fuel₂ l h₁ h₂
    cases fuel₂ with
    | zero =>
      have hl : l = [] := List.eq_nil_of_length_eq_zero (by omega)
      rw [chunksF_zero, chunksF_succ, hl]
      rfl
    | succ f₂ =>
      rw [chunksF_succ, chunksF_succ]
      by_cases h : l.isEmpty
      · rw [if_pos h, if_pos h]
      · rw [if_neg h, if_neg h]
        have hlen : 0 < l.length := by
          cases l with
          | nil => simp at h
          | cons a t => simp
        have hdrop : (l.drop k).length ≤ f₁ := by simp; omega
        have hdrop₂ : (l.drop k).length ≤ f₂ := by simp; omega
        rw [ih f₂ (l.drop k) hdrop hdrop₂]

theorem chunks_nil (k : Nat) : chunks k ([] : List α) = [] := rfl

theorem chunks_step (k : Nat) (hk : 0 < k) (l : List α) (h : l ≠ []) :
    chunks k l = l.take k :: chunks k (l.drop k) := by
  rw [chunks, chunks]
  cases hl : l.length with
  | zero => exact absurd (List.eq_nil_of_length_eq_zero hl) h
  | succ n =>
    rw [chunksF_succ, if_neg (by simpa [List.isEmpty_iff] using h)]
    congr 1
    exact chunksF_fuel k hk n (l.drop k).length (l.drop k) (by simp; omega) le_rfl

theorem chunksExact_length_aux (k : Nat) (hk : 0 < k) :
    ∀ (n : Nat) (l : List α), l.length ≤ n →
      (chunksExact k l).length = l.length / k := by
  intro n
  induction n with
  | zero =>
    intro l h
    have hlt : l.length < k := by omega
    rw [chunksExact_stop k l hlt]
    simp [Nat.div_eq_of_lt hlt]
  | succ m ih =>
    intro l h
    by_cases hlt : l.length < k
    · rw [chunksExact_stop k l hlt]
      simp [Nat.div_eq_of_lt hlt]
    · push_neg at hlt
      rw [chunksExact_step k hk l hlt, List.length_cons, ih (l.drop k) (by simp; omega),
        List.length_drop, Nat.div_eq_sub_div hk hlt]

theorem length_chunksExact (k : Nat) (hk : 0 < k) (l : List α) :
    (chunksExact k l).length = l.length / k :=
  chunksExact_length_aux k hk l.length l le_rfl

theorem chunksExact_mem_aux (k : Nat) (hk : 0 < k) :
    ∀ (n : Nat) (l : List α), l.length ≤ n →
      ∀ c ∈ chunksExact k l, c.length = k := by
  intro n
  induction n with
  | zero =>
    intro l h c hc
    rw [chunksExact_stop k l (by omega)] at hc
    simp at hc
  | succ m ih =>
    intro l h c hc
    by_cases hlt : l.length < k
    · rw [chunksExact_stop k l hlt] at hc
      simp at hc
    · push_neg at hlt
      rw [chunksExact_step k hk l hlt] at hc
      rcases List.mem_cons.mp hc with hc | hc
      · rw [hc, List.length_take]
        omega
      · exact ih (l.drop k) (by simp; omega) c hc

theorem mem_chunksExact (k : Nat) (hk : 0 < k) (l : List α) (c : List α)
    (hc : c ∈ chunksExact k l) : c.length = k :=
  chunksExact_mem_aux k hk l.length l le_rfl c hc

theorem chunksExact_flatten_aux (k : Nat) (hk : 0 < k) :
    ∀ (n : Nat) (l : List α), l.length ≤ n →
      (chunksExact k l).flatten = l.take (k * (l.length / k)) := by
  intro n
  induction n with
  | zero =>
    intro l h
    have hlt : l.length < k := by omega
    rw [chunksExact_stop k l hlt]
    simp [Nat.div_eq_of_lt hlt]
  | succ m ih =>
    intro l h
    by_cases hlt : l.length < k
    · rw [chunksExact_stop k l hlt]
      simp [Nat.div_eq_of_lt hlt]
    · push_neg at hlt
      rw [chunksExact_step k hk l hlt, List.flatten_cons, ih (l.drop k) (by simp; omega),
        List.length_drop, Nat.div_eq_sub_div hk hlt]
      rw [Nat.mul_add, Nat.mul_one, Nat.add_comm, ← List.take_add]

theorem flatten_chunksExact (k : Nat) (hk : 0 < k) (l : List α) :
    (chunksExact k l).flatten = l.take (k * (l.length / k)) :=
  chunksExact_flatten_aux k hk l.length l le_rfl

theorem chunksExact_getD_aux (k : Nat) (hk : 0 < k) :
    ∀ (n : Nat) (l : List α) (i : Nat), l.length ≤ n → i < l.length / k →
      (chunksExact k l).getD i [] = (l.drop (k * i)).take k := by
  intro n
  induction n with
  | zero =>
    intro l i h hi
    have hlt : l.length < k := by omega
    rw [Nat.div_eq_of_lt hlt] at hi
    omega
  | succ m ih =>
    intro l i h hi
    have hge : k ≤ l.length := by
      by_contra hc
      push_neg at hc
      rw [Nat.div_eq_of_lt hc] at hi
      omega
    rw [chunksExact_step k hk l hge]
    cases i with
    | zero => simp
    | succ j =>
      have hj : j < (l.drop k).length / k := by
        rw [List.length_drop]
        rw [Nat.div_eq_sub_div hk hge] at hi
        omega
      have : (l.take k :: chunksExact k (l.drop k)).getD (j + 1) [] =
          (chunksExact k (l.drop k)).getD j [] := rfl
      rw [this, ih (l.drop k) j (by simp; omega) hj, List.drop_drop]
      congr 2
      ring

theorem getD_chunksExact (k : Nat) (hk : 0 < k) (l : List α) (i : Nat)
    (hi : i < l.length / k) :
    (chunksExact k l).getD i [] = (l.drop (k * i)).take k :=
  chunksExact_getD_aux k hk l.length l i le_rfl hi

theorem chunks_map_bytes :
    ∀ (e : List Nat) (T : List Bool), (∀ b ∈ e, b < 256) → T ≠ [] → T.length ≤ 8 →
      (chunks 8 ((e.map (natBitsBE 8)).flatten ++ T)).map (chunkToNum 8) =
        e ++ [chunkToNum 8 T] := by
  intro e
  induction e with
  | nil =>
    intro T _ hne hlen
    simp only [List.map_nil, List.flatten_nil, List.nil_append]
    rw [chunks_step 8 (by norm_num) T hne, List.take_of_length_le hlen,
      List.drop_of_length_le hlen, chunks_nil]
    simp
  | cons b rest ih =>
    intro T hb hne hlen
    have hflat : ((b :: rest).map (natBitsBE 8)).flatten ++ T =
        natBitsBE 8 b ++ ((rest.map (natBitsBE 8)).flatten ++ T) := by
      simp
    have hblen : (natBitsBE 8 b).length = 8 := length_natBitsBE 8 b
    have hne' : natBitsBE 8 b ++ ((rest.map (natBitsBE 8)).flatten ++ T) ≠ [] := by
      refine List.ne_nil_of_length_pos ?_
      rw [List.length_append, hblen]
      omega
    rw [hflat, chunks_step 8 (by norm_num) _ hne',
      List.take_append_of_le_length (by omega), List.take_of_length_le (by omega),
      List.drop_append_eq_append_drop]
    have hdropb : (natBitsBE 8 b).drop 8 = [] := List.drop_of_length_le (by omega)
    have h8 : 8 - (natBitsBE 8 b).length = 0 := by omega
    rw [hdropb, h8, List.nil_append, List.drop_zero, List.map_cons]
    have hbval : chunkToNum 8 (natBitsBE 8 b) = b := by
      rw [chunkToNum_full 8 _ hblen, valBE_natBitsBE]
      exact Nat.mod_eq_of_lt (by simpa using hb b (by simp))
    rw [hbval, ih T (fun x hx => hb x (by simp [hx])) hne hlen]
    simp

theorem foldl_extend_from_byte (e : List Nat) :
    ∀ bits : List Bool, e.foldl extend_from_byte bits = bits ++ (e.map (natBitsBE 8)).flatten := by
  induction e with
  | nil => intro bits; simp
  | cons b rest ih =>
    intro bits
    rw [List.foldl_cons, ih, extend_from_byte_eq]
    simp

theorem foldl_extend_from_bits11 (l : List Bits11) (hl : ∀ b ∈ l, b.val < 2048) :
    ∀ bits : List Bool,
      l.foldl extend_from_bits11 bits = bits ++ (l.map (fun b => natBitsBE 11 b.val)).flatten := by
  induction l with
  | nil => intro bits; simp
  | cons b rest ih =>
    intro bits
    rw [List.foldl_cons, ih (fun x hx => hl x (by simp [hx])),
      extend_from_bits11_eq bits b (hl b (by simp))]
    simp

/-! ### from_entropy / to_entropy structure lemmas -/

theorem natBitsBE_take (w b k : Nat) (hk : k ≤ w) :
    (natBitsBE w b).take k = natBitsBE k (b / 2 ^ (w - k)) := by
  rw [natBitsBE, natBitsBE, ← List.map_take, List.take_range, Nat.min_eq_left hk]
  refine List.map_congr_left ?_
  intro i hi
  rw [List.mem_range] at hi
  rw [← Nat.shiftRight_eq_div_pow, Nat.testBit_shiftRight]
  congr 1
  omega

theorem length_flatten_natBitsBE (e : List Nat) :
    ((e.map (natBitsBE 8)).flatten).length = 8 * e.length := by
  induction e with
  | nil => simp
  | cons b rest ih =>
    simp only [List.map_cons, List.flatten_cons, List.length_append, ih,
      length_natBitsBE, List.length_cons]
    ring

theorem from_entropy_ok_eq (hash : List Nat → Nat) (e : List Nat)
    (hn : 16 ≤ e.length ∧ e.length ≤ 32 ∧ e.length % 4 = 0) :
    WordSet.from_entropy hash e =
      .ok ⟨(chunksExact 11 ((e.map (natBitsBE 8)).flatten ++ natBitsBE 8 (hash e))).map
        (fun c => ⟨chunkToNum 11 c⟩)⟩ := by
  rw [WordSet.from_entropy, if_neg (by omega)]
  show Except.ok
      (WordSet.mk ((chunksExact BITS_IN_U11
          (extend_from_byte (e.foldl extend_from_byte []) (hash e))).map
        (fun chunk => Bits11.mk (chunkToNum BITS_IN_U11 chunk)))) =
    Except.ok
      (WordSet.mk ((chunksExact 11 ((e.map (natBitsBE 8)).flatten ++ natBitsBE 8 (hash e))).map
        (fun c => Bits11.mk (chunkToNum 11 c))))
  rw [extend_from_byte_eq, foldl_extend_from_byte e [], List.nil_append]
  rfl

theorem from_entropy_val_lt (L : List Bool) (b : Bits11)
    (hb : b ∈ (chunksExact 11 L).map (fun c => (⟨chunkToNum 11 c⟩ : Bits11))) :
    b.val < 2048 := by
  rcases List.mem_map.mp hb with ⟨c, hc, rfl⟩
  have hlen := mem_chunksExact 11 (by norm_num) L c hc
  have h := chunkToNum_lt 11 c (by omega)
  simpa using h

theorem to_entropy_ok_generic (hash : List Nat → Nat) (e : List Nat) (mt : MnemonicType)
    (hb : ∀ b ∈ e, b < 256) (hh : hash e < 256)
    (hmtlen : MnemonicType.fromLen
      ((((e.map (natBitsBE 8)).flatten ++ natBitsBE 8 (hash e)).length) / 11) = .ok mt)
    (hent : mt.entropy_bits = 8 * e.length)
    (hcs : 11 * ((((e.map (natBitsBE 8)).flatten ++ natBitsBE 8 (hash e)).length) / 11) =
      8 * e.length + mt.checksum_bits)
    (hcsle : mt.checksum_bits ≤ 8) (hcspos : 0 < mt.checksum_bits) :
    WordSet.to_entropy hash
      ⟨(chunksExact 11 ((e.map (natBitsBE 8)).flatten ++ natBitsBE 8 (hash e))).map
        (fun c => ⟨chunkToNum 11 c⟩)⟩ = .ok e := by
  set L : List Bool := (e.map (natBitsBE 8)).flatten ++ natBitsBE 8 (hash e) with hL
  set il : List Bits11 := (chunksExact 11 L).map (fun c => ⟨chunkToNum 11 c⟩) with hil
  have hlen_il : il.length = L.length / 11 := by
    rw [hil, List.length_map, length_chunksExact 11 (by norm_num)]
  have hfold : il.foldl extend_from_bits11 [] = L.take (8 * e.length + mt.checksum_bits) := by
    rw [foldl_extend_from_bits11 il (fun b hb => from_entropy_val_lt L b (hil ▸ hb)) [],
      List.nil_append, hil, List.map_map]
    have hmapeq : (chunksExact 11 L).map
        ((fun b => natBitsBE 11 b.val) ∘ (fun c => (⟨chunkToNum 11 c⟩ : Bits11))) =
        (chunksExact 11 L).map id := by
      refine List.map_congr_left ?_
      intro c hc
      have hlen := mem_chunksExact 11 (by norm_num) L c hc
      show natBitsBE 11 (chunkToNum 11 c) = c
      rw [chunkToNum_full 11 c hlen, ← hlen, natBitsBE_valBE]
    rw [hmapeq, List.map_id, flatten_chunksExact 11 (by norm_num), hcs]
  have hsplitL : L.take (8 * e.length + mt.checksum_bits) =
      (e.map (natBitsBE 8)).flatten ++ (natBitsBE 8 (hash e)).take mt.checksum_bits := by
    rw [hL]
    have h8n : 8 * e.length = ((e.map (natBitsBE 8)).flatten).length :=
      (length_flatten_natBitsBE e).symm
    rw [h8n, List.take_append]
  set T : List Bool := (natBitsBE 8 (hash e)).take mt.checksum_bits with hT
  have hTlen : T.length = mt.checksum_bits := by
    rw [hT, List.length_take, length_natBitsBE, Nat.min_eq_left hcsle]
  have hTne : T ≠ [] := by
    refine List.ne_nil_of_length_pos ?_
    omega
  have hbytes : (chunks 8 (il.foldl extend_from_bits11 [])).map (chunkToNum 8) =
      e ++ [chunkToNum 8 T] := by
    rw [hfold, hsplitL]
    exact chunks_map_bytes e T hb hTne (by omega)
  have hn8 : mt.entropy_bits / 8 = e.length := by
    rw [hent, Nat.mul_div_cancel_left _ (by norm_num)]
  have hgetD : (e ++ [chunkToNum 8 T]).getD e.length 0 = chunkToNum 8 T := by
    rw [List.getD_eq_getElem?_getD, List.getElem?_append_right le_rfl]
    simp
  have htake : (e ++ [chunkToNum 8 T]).take e.length = e := List.take_left e _
  have hTval : chunkToNum 8 T = (hash e / 2 ^ (8 - mt.checksum_bits)) *
      2 ^ (8 - mt.checksum_bits) := by
    rw [chunkToNum_eq 8 T (by omega), hTlen, hT,
      natBitsBE_take 8 (hash e) mt.checksum_bits hcsle, valBE_natBitsBE]
    congr 1
    refine Nat.mod_eq_of_lt ?_
    rw [Nat.div_lt_iff_lt_mul (Nat.two_pow_pos _), ← pow_add]
    have h8 : 8 - mt.checksum_bits + mt.checksum_bits = 8 := by omega
    rw [Nat.add_comm, h8]
    exact lt_of_lt_of_le hh (by norm_num)
  have hactual : checksum (chunkToNum 8 T) mt.checksum_bits =
      hash e / 2 ^ (8 - mt.checksum_bits) := by
    rw [checksum, hTval, Nat.shiftRight_eq_div_pow]
    show _ / 2 ^ (8 - mt.checksum_bits) = _
    rw [Nat.mul_div_cancel _ (Nat.two_pow_pos _)]
  have hexpected : checksum (hash e) mt.checksum_bits =
      hash e / 2 ^ (8 - mt.checksum_bits) := by
    rw [checksum, Nat.shiftRight_eq_div_pow]
    rfl
  rw [WordSet.to_entropy]
  simp only [hlen_il, hmtlen]
  show (if checksum (((chunks BITS_IN_BYTE (il.foldl extend_from_bits11 [])).map
      (chunkToNum BITS_IN_BYTE)).getD (mt.entropy_bits / BITS_IN_BYTE) 0) mt.checksum_bits ≠
      checksum (hash (((chunks BITS_IN_BYTE (il.foldl extend_from_bits11 [])).map
        (chunkToNum BITS_IN_BYTE)).take (mt.entropy_bits / BITS_IN_BYTE))) mt.checksum_bits
    then Except.error ErrorMnemonic.InvalidChecksum
    else Except.ok (((chunks BITS_IN_BYTE (il.foldl extend_from_bits11 [])).map
      (chunkToNum BITS_IN_BYTE)).take (mt.entropy_bits / BITS_IN_BYTE))) = Except.ok e
  rw [show BITS_IN_BYTE = 8 from rfl, hbytes, hn8, hgetD, htake, hactual, hexpected]
  rw [if_neg (by simp)]

theorem to_entropy_of_from_entropy (hash : List Nat → Nat) (e : List Nat) (ws : WordSet)
    (hb : ∀ b ∈ e, b < 256) (hh : hash e < 256)
    (hn : e.length = 16 ∨ e.length = 20 ∨ e.length = 24 ∨ e.length = 28 ∨ e.length = 32)
    (hws : WordSet.from_entropy hash e = .ok ws) :
    WordSet.to_entropy hash ws = .ok e := by
  have hvalid : 16 ≤ e.length ∧ e.length ≤ 32 ∧ e.length % 4 = 0 := by
    rcases hn with h | h | h | h | h <;> rw [h] <;> norm_num
  rw [from_entropy_ok_eq hash e hvalid] at hws
  injection hws with hwseq
  subst hwseq
  have hLlen : ((e.map (natBitsBE 8)).flatten ++ natBitsBE 8 (hash e)).length =
      8 * e.length + 8 := by
    rw [List.length_append, length_flatten_natBitsBE, length_natBitsBE]
  have hex : ∃ mt : MnemonicType,
      MnemonicType.fromLen ((8 * e.length + 8) / 11) = .ok mt ∧
      mt.entropy_bits = 8 * e.length ∧
      11 * ((8 * e.length + 8) / 11) = 8 * e.length + mt.checksum_bits ∧
      mt.checksum_bits ≤ 8 ∧ 0 < mt.checksum_bits := by
    rcases hn with h | h | h | h | h <;> rw [h] <;>
      exact ⟨_, rfl, rfl, rfl, by decide, by decide⟩
  obtain ⟨mt, hmtlen, hent, hcs, hcsle, hcspos⟩ := hex
  exact to_entropy_ok_generic hash e mt hb hh (by rw [hLlen]; exact hmtlen) hent
    (by rw [hLlen]; exact hcs) hcsle hcspos

/-! ### to_phrase / add_word plumbing -/

theorem foldlM_phrase_ok (wl : AsWordList W) :
    ∀ (l : List Bits11) (init : String), (∀ b ∈ l, ∃ w, wl.get_word b = .ok w) →
      ∃ s, l.foldlM
        (fun phrase bits11 =>
          (wl.get_word bits11).map
            (fun word =>
              (if phrase.isEmpty then phrase else phrase.push ' ') ++ wl.as_ref word))
        init = .ok s := by
  intro l
  induction l with
  | nil => intro init _; exact ⟨init, rfl⟩
  | cons b rest ih =>
    intro init h
    obtain ⟨w, hw⟩ := h b (by simp)
    obtain ⟨s, hs⟩ := ih ((if init.isEmpty then init else init.push ' ') ++ wl.as_ref w)
      (fun x hx => h x (by simp [hx]))
    refine ⟨s, ?_⟩
    rw [List.foldlM_cons, hw]
    exact hs

theorem to_phrase_ok (wl : AsWordList W) (ws : WordSet) (hne : ws.bits11_set ≠ [])
    (hget : ∀ b ∈ ws.bits11_set, ∃ w, wl.get_word b = .ok w) :
    ∃ phrase, ws.to_phrase wl = some (.ok phrase) := by
  have hlen : 0 < ws.bits11_set.length := List.length_pos.mpr hne
  obtain ⟨s, hs⟩ := foldlM_phrase_ok wl ws.bits11_set "" hget
  refine ⟨s, ?_⟩
  rw [WordSet.to_phrase, if_neg (by simp only [WORD_MAX_LEN, SEPARATOR_LEN]; omega), hs]

theorem addWords_append (wl : AsWordList W) :
    ∀ (suffix : List Bits11) (words : List W) (pre : List Bits11),
      pre.length + suffix.length ≤ MAX_SEED_LEN →
      List.Forall₂ (fun b w => wl.get_word b = .ok w) suffix words →
      (∀ (b : Bits11) (w : W), b.val < TOTAL_WORDS → wl.get_word b = .ok w →
        wl.bits11_for_word (wl.as_ref w) = .ok b) →
      (∀ b ∈ suffix, b.val < TOTAL_WORDS) →
      addWords wl ⟨pre⟩ (words.map wl.as_ref) = .ok ⟨pre ++ suffix⟩ := by
  intro suffix
  induction suffix with
  | nil =>
    intro words pre _ hf _ _
    cases hf
    simp only [List.map_nil, List.append_nil]
    rfl
  | cons b rest ih =>
    intro words pre hlen hf hinv hvals
    cases hf with
    | cons hb hrest =>
      rename_i w ws'
      have hvalb : b.val < TOTAL_WORDS := hvals b (by simp)
      have hword : wl.bits11_for_word (wl.as_ref w) = .ok b := hinv b w hvalb hb
      show ((WordSet.mk pre).add_word (wl.as_ref w) wl >>= fun s =>
        addWords wl s (ws'.map wl.as_ref)) = .ok ⟨pre ++ b :: rest⟩
      have hpre : pre.length < MAX_SEED_LEN := by
        have := List.length_cons b rest ▸ hlen
        omega
      rw [WordSet.add_word, if_pos hpre, hword]
      show addWords wl ⟨pre ++ [b]⟩ (ws'.map wl.as_ref) = .ok ⟨pre ++ b :: rest⟩
      rw [ih ws' (pre ++ [b]) (by simp at hlen ⊢; omega) hrest hinv
        (fun x hx => hvals x (by simp [hx]))]
      simp

/-! ### Helper facts about the concrete provider -/

theorem unaryWordList_inv : ∀ (b : Bits11) (w : String), b.val < TOTAL_WORDS →
    unaryWordList.get_word b = .ok w →
    unaryWordList.bits11_for_word (unaryWordList.as_ref w) = .ok b := by
  intro b w hb h
  injection h with hw
  subst hw
  show (if (String.mk (List.replicate b.val 'a')).length < TOTAL_WORDS then
      Except.ok (⟨(String.mk (List.replicate b.val 'a')).length⟩ : Bits11)
    else Except.error ErrorMnemonic.NoWord) = Except.ok b
  have hlen : (String.mk (List.replicate b.val 'a')).length = b.val := by
    show (List.replicate b.val 'a').length = b.val
    simp
  rw [hlen, if_pos hb]

theorem unaryWordList_valid : ∀ (s : String) (b : Bits11),
    unaryWordList.bits11_for_word s = .ok b → b.val < TOTAL_WORDS := by
  intro s b h
  show b.val < TOTAL_WORDS
  by_cases hs : s.length < TOTAL_WORDS
  · have : unaryWordList.bits11_for_word s = .ok ⟨s.length⟩ := by
      show (if s.length < TOTAL_WORDS then Except.ok (⟨s.length⟩ : Bits11)
        else Except.error ErrorMnemonic.NoWord) = Except.ok ⟨s.length⟩
      rw [if_pos hs]
    rw [this] at h
    injection h with hb
    rw [← hb]
    exact hs
  · have : unaryWordList.bits11_for_word s = .error .NoWord := by
      show (if s.length < TOTAL_WORDS then Except.ok (⟨s.length⟩ : Bits11)
        else Except.error ErrorMnemonic.NoWord) = Except.error ErrorMnemonic.NoWord
      rw [if_neg hs]
    rw [this] at h
    exact absurd h (by simp)

theorem forall₂_replicate {α β : Type} {R : α → β → Prop} (a : α) (b : β) (h : R a b) :
    ∀ n, List.Forall₂ R (List.replicate n a) (List.replicate n b) := by
  intro n
  induction n with
  | zero => exact List.Forall₂.nil
  | succ m ih => exact List.Forall₂.cons h ih

theorem forall₂_exists_left {α β : Type} {R : α → β → Prop} :
    ∀ {l₁ : List α} {l₂ : List β}, List.Forall₂ R l₁ l₂ → ∀ a ∈ l₁, ∃ b, R a b := by
  intro l₁ l₂ h
  induction h with
  | nil => intro a ha; simp at ha
  | cons hr _ ih =>
    intro a ha
    rcases List.mem_cons.mp ha with rfl | ha
    · exact ⟨_, hr⟩
    · exact ih a ha

/-! ### Claim theorems -/

/-- Claim C7: `Bits11::from` accepts exactly the values up to 2047, returning an
index carrying that value, and rejects 2048 and above with `InvalidWordNumber`
(the spec calls this error `InvalidIndex`). -/
theorem claim_bits11_from_range (i : Nat) :
    (i ≤ 2047 → Bits11.fromU16 i = .ok ⟨i⟩ ∧ (⟨i⟩ : Bits11).bits = i) ∧
    (2048 ≤ i → Bits11.fromU16 i = .error .InvalidWordNumber) := by
  constructor
  · intro h
    refine ⟨?_, rfl⟩
    rw [Bits11.fromU16, if_pos (show i < TOTAL_WORDS by rw [TOTAL_WORDS]; omega)]
  · intro h
    rw [Bits11.fromU16, if_neg (show ¬i < TOTAL_WORDS by rw [TOTAL_WORDS]; omega)]

theorem claim_bits11_from_range_witness :
    (Bits11.fromU16 2047 = .ok ⟨2047⟩ ∧ (⟨2047⟩ : Bits11).bits = 2047) ∧
    Bits11.fromU16 2048 = .error .InvalidWordNumber :=
  ⟨(claim_bits11_from_range 2047).1 (by norm_num),
    (claim_bits11_from_range 2048).2 (by norm_num)⟩

/-- Claim C6: `from_entropy` fails with `InvalidEntropy` exactly when the byte
length is outside `[16,32]` or not divisible by 4, and succeeds otherwise. -/
theorem claim_from_entropy_length (hash : List Nat → Nat) (e : List Nat) :
    (WordSet.from_entropy hash e = .error .InvalidEntropy ↔
      (e.length < 16 ∨ 32 < e.length ∨ e.length % 4 ≠ 0)) ∧
    ((16 ≤ e.length ∧ e.length ≤ 32 ∧ e.length % 4 = 0) →
      ∃ ws, WordSet.from_entropy hash e = .ok ws) := by
  constructor
  · constructor
    · intro h
      by_contra hc
      push_neg at hc
      rw [WordSet.from_entropy, if_neg (by omega)] at h
      exact absurd h (by simp)
    · intro h
      rw [WordSet.from_entropy, if_pos (by omega)]
  · intro h
    exact ⟨_, by rw [WordSet.from_entropy, if_neg (by omega)]⟩

theorem claim_from_entropy_length_witness :
    (WordSet.from_entropy (fun _ => 0) (List.replicate 15 0) = .error .InvalidEntropy ↔
      ((List.replicate 15 (0 : Nat)).length < 16 ∨
        32 < (List.replicate 15 (0 : Nat)).length ∨
        (List.replicate 15 (0 : Nat)).length % 4 ≠ 0)) ∧
    ∃ ws, WordSet.from_entropy (fun _ => 0) (List.replicate 16 0) = .ok ws :=
  ⟨(claim_from_entropy_length (fun _ => 0) (List.replicate 15 0)).1,
    (claim_from_entropy_length (fun _ => 0) (List.replicate 16 0)).2 (by simp)⟩

/-- Claim C10: for a valid index (value < 2048) and the 2048-entry table of
§4.8, `InternalWordList::get_word` neither panics (the indexing is in bounds)
nor returns an error. -/
theorem claim_internal_get_word (wordlist_english : List String)
    (hlen : wordlist_english.length = TOTAL_WORDS) (b : Bits11)
    (hb : b.val < TOTAL_WORDS) :
    ∃ w, InternalWordList.get_word wordlist_english b = some (.ok w) := by
  rw [InternalWordList.get_word]
  have hlt : b.bits < wordlist_english.length := by
    rw [hlen]
    exact hb
  rw [dif_pos hlt]
  exact ⟨_, rfl⟩

theorem claim_internal_get_word_witness :
    ∃ w, InternalWordList.get_word (List.replicate TOTAL_WORDS (String.mk ['x'])) ⟨2047⟩ =
      some (.ok w) :=
  claim_internal_get_word (List.replicate TOTAL_WORDS (String.mk ['x'])) (by simp) ⟨2047⟩
    (by decide)

/-- Claim C5: `add_word` on a full 24-entry set is a success no-op; below 24
entries it propagates the provider's failure verbatim and on success appends
exactly the resolved index. -/
theorem claim_add_word_effect (wl : AsWordList W) (ws : WordSet) (w : String) :
    (ws.bits11_set.length = MAX_SEED_LEN → ws.add_word w wl = .ok ws) ∧
    (ws.bits11_set.length < MAX_SEED_LEN →
      (∀ err, wl.bits11_for_word w = .error err → ws.add_word w wl = .error err) ∧
      (∀ b, wl.bits11_for_word w = .ok b → ws.add_word w wl = .ok ⟨ws.bits11_set ++ [b]⟩)) := by
  refine ⟨?_, ?_⟩
  · intro h
    rw [WordSet.add_word, if_neg (by omega)]
  · intro h
    refine ⟨?_, ?_⟩
    · intro err herr
      rw [WordSet.add_word, if_pos h, herr]
    · intro b hb
      rw [WordSet.add_word, if_pos h, hb]

theorem claim_add_word_effect_witness :
    WordSet.add_word ⟨List.replicate 24 ⟨0⟩⟩ (String.mk ['a']) unaryWordList =
      .ok ⟨List.replicate 24 ⟨0⟩⟩ ∧
    WordSet.add_word WordSet.new (String.mk ['a']) unaryWordList = .ok ⟨[⟨1⟩]⟩ :=
  ⟨(claim_add_word_effect unaryWordList ⟨List.replicate 24 ⟨0⟩⟩ (String.mk ['a'])).1
      (by rw [MAX_SEED_LEN]; simp),
    ((claim_add_word_effect unaryWordList WordSet.new (String.mk ['a'])).2
      (by rw [MAX_SEED_LEN]; decide)).2 ⟨1⟩ rfl⟩

theorem fromLen_error_iff (n : Nat) :
    MnemonicType.fromLen n = .error .WordsNumber ↔
      ¬(n = 12 ∨ n = 15 ∨ n = 18 ∨ n = 21 ∨ n = 24) := by
  constructor
  · intro h hc
    rcases hc with rfl | rfl | rfl | rfl | rfl <;> exact absurd h (by simp [MnemonicType.fromLen])
  · intro h
    unfold MnemonicType.fromLen
    split
    · exact absurd (by omega) h
    · exact absurd (by omega) h
    · exact absurd (by omega) h
    · exact absurd (by omega) h
    · exact absurd (by omega) h
    · rfl

theorem fromLen_ok_of_mem (n : Nat)
    (h : n = 12 ∨ n = 15 ∨ n = 18 ∨ n = 21 ∨ n = 24) :
    ∃ mt, MnemonicType.fromLen n = .ok mt := by
  rcases h with rfl | rfl | rfl | rfl | rfl <;> exact ⟨_, rfl⟩

theorem to_entropy_ne_wordsNumber (hash : List Nat → Nat) (ws : WordSet) (mt : MnemonicType)
    (hmt : MnemonicType.fromLen ws.bits11_set.length = .ok mt) :
    WordSet.to_entropy hash ws ≠ .error .WordsNumber := by
  rw [WordSet.to_entropy]
  simp only [hmt]
  split <;> simp

/-- Claim C8: `to_entropy` fails with `WordsNumber` exactly when the word count
is not one of 12/15/18/21/24, and `is_finalizable` is true exactly when it is. -/
theorem claim_words_number (hash : List Nat → Nat) (ws : WordSet) :
    (WordSet.to_entropy hash ws = .error .WordsNumber ↔
      ¬(ws.bits11_set.length = 12 ∨ ws.bits11_set.length = 15 ∨
        ws.bits11_set.length = 18 ∨ ws.bits11_set.length = 21 ∨
        ws.bits11_set.length = 24)) ∧
    (ws.is_finalizable = true ↔
      (ws.bits11_set.length = 12 ∨ ws.bits11_set.length = 15 ∨
        ws.bits11_set.length = 18 ∨ ws.bits11_set.length = 21 ∨
        ws.bits11_set.length = 24)) := by
  constructor
  · constructor
    · intro h
      by_contra hc
      obtain ⟨mt, hmt⟩ := fromLen_ok_of_mem _ hc
      exact to_entropy_ne_wordsNumber hash ws mt hmt h
    · intro h
      have herr := (fromLen_error_iff ws.bits11_set.length).mpr h
      rw [WordSet.to_entropy]
      simp only [herr]
  · constructor
    · intro h
      by_contra hc
      have herr := (fromLen_error_iff ws.bits11_set.length).mpr hc
      rw [WordSet.is_finalizable] at h
      simp only [herr] at h
      exact Bool.false_ne_true h
    · intro hc
      obtain ⟨mt, hmt⟩ := fromLen_ok_of_mem _ hc
      rw [WordSet.is_finalizable]
      simp only [hmt]

theorem claim_words_number_witness :
    WordSet.to_entropy (fun _ => 0) ⟨List.replicate 13 ⟨0⟩⟩ = .error .WordsNumber ∧
    WordSet.is_finalizable ⟨List.replicate 12 ⟨0⟩⟩ = true :=
  ⟨(claim_words_number (fun _ => 0) ⟨List.replicate 13 ⟨0⟩⟩).1.mpr (by simp),
    (claim_words_number (fun _ => 0) ⟨List.replicate 12 ⟨0⟩⟩).2.mpr (by simp)⟩

/-- Claim C4 (code bug): on the empty `WordSet` the capacity hint
`0 * (WORD_MAX_LEN + SEPARATOR_LEN) - SEPARATOR_LEN` underflows in `usize`, so
`to_phrase` panics (debug: subtract-with-overflow; release: the wrapped value
makes `String::with_capacity` fail with a capacity overflow) instead of
returning the empty string; the panic is the `none` of the model. -/
theorem claim_to_phrase_empty_panics {W : Type} (wl : AsWordList W) :
    WordSet.to_phrase wl WordSet.new = none := rfl

/-- Claim C9: `new`, `from_entropy` and `add_word` preserve the WordSet
invariants (at most 24 indices, each below 2048). The `add_word` part assumes
the provider only hands out indices below 2048, which is what the crate
enforces by making `Bits11::from` the only public constructor. -/
theorem claim_wordset_invariants :
    WordSet.Inv WordSet.new ∧
    (∀ (hash : List Nat → Nat) (e : List Nat) (ws : WordSet),
      WordSet.from_entropy hash e = .ok ws → WordSet.Inv ws) ∧
    (∀ (W : Type) (wl : AsWordList W) (ws ws' : WordSet) (w : String),
      (∀ (s : String) (b : Bits11), wl.bits11_for_word s = .ok b → b.val < TOTAL_WORDS) →
      WordSet.Inv ws → ws.add_word w wl = .ok ws' → WordSet.Inv ws') := by
  refine ⟨⟨by simp [WordSet.new], by simp [WordSet.new]⟩, ?_, ?_⟩
  · intro hash e ws hws
    by_cases hcond : e.length < 16 ∨ e.length > 32 ∨ e.length % 4 ≠ 0
    · rw [WordSet.from_entropy, if_pos hcond] at hws
      exact absurd hws (by simp)
    · push_neg at hcond
      obtain ⟨h16, h32, h4⟩ := hcond
      rw [from_entropy_ok_eq hash e ⟨h16, h32, h4⟩] at hws
      injection hws with hwseq
      subst hwseq
      constructor
      · show ((chunksExact 11 _).map _).length ≤ MAX_SEED_LEN
        rw [List.length_map, length_chunksExact 11 (by norm_num), List.length_append,
          length_flatten_natBitsBE, length_natBitsBE]
        have hle : 8 * e.length + 8 ≤ 264 := by omega
        exact le_trans (Nat.div_le_div_right hle) (by norm_num [MAX_SEED_LEN])
      · intro b hb
        exact from_entropy_val_lt _ b hb
  · intro W wl ws ws' w hprov hinv hadd
    rw [WordSet.add_word] at hadd
    by_cases hlen : ws.bits11_set.length < MAX_SEED_LEN
    · rw [if_pos hlen] at hadd
      cases hword : wl.bits11_for_word w with
      | error err =>
        simp only [hword] at hadd
        exact absurd hadd (by simp)
      | ok b =>
        simp only [hword] at hadd
        injection hadd with heq
        subst heq
        constructor
        · simp only [List.length_append, List.length_cons, List.length_nil]
          omega
        · intro x hx
          rcases List.mem_append.mp hx with hx | hx
          · exact hinv.2 x hx
          · rw [List.mem_singleton] at hx
            subst hx
            exact hprov w x hword
    · rw [if_neg hlen] at hadd
      injection hadd with heq
      subst heq
      exact hinv

theorem claim_wordset_invariants_witness :
    WordSet.Inv WordSet.new ∧ WordSet.Inv ⟨[⟨5⟩]⟩ :=
  ⟨claim_wordset_invariants.1,
    claim_wordset_invariants.2.2 String unaryWordList WordSet.new ⟨[⟨5⟩]⟩
      (String.mk ['a', 'a', 'a', 'a', 'a']) unaryWordList_valid
      claim_wordset_invariants.1 rfl⟩

/-- Claim C2: for a WordSet of valid length, `to_entropy` compares the top
`checksum_bits` of the trailing regrouped byte against the top `checksum_bits`
of the hash of the first `entropy_bits/8` regrouped bytes, fails with
`InvalidChecksum` exactly when they differ, and otherwise returns that
truncation as the entropy. -/
theorem claim_to_entropy_checksum (hash : List Nat → Nat) (ws : WordSet)
    (mt : MnemonicType)
    (hmt : MnemonicType.fromLen ws.bits11_set.length = .ok mt) :
    (WordSet.to_entropy hash ws = .error .InvalidChecksum ↔
      (regroupedBytes ws).getD (mt.entropy_bits / 8) 0 >>> (8 - mt.checksum_bits) ≠
        hash ((regroupedBytes ws).take (mt.entropy_bits / 8)) >>>
          (8 - mt.checksum_bits)) ∧
    ((regroupedBytes ws).getD (mt.entropy_bits / 8) 0 >>> (8 - mt.checksum_bits) =
        hash ((regroupedBytes ws).take (mt.entropy_bits / 8)) >>>
          (8 - mt.checksum_bits) →
      WordSet.to_entropy hash ws =
        .ok ((regroupedBytes ws).take (mt.entropy_bits / 8))) := by
  have hcore : WordSet.to_entropy hash ws =
      if (regroupedBytes ws).getD (mt.entropy_bits / 8) 0 >>> (8 - mt.checksum_bits) ≠
          hash ((regroupedBytes ws).take (mt.entropy_bits / 8)) >>> (8 - mt.checksum_bits)
      then .error .InvalidChecksum
      else .ok ((regroupedBytes ws).take (mt.entropy_bits / 8)) := by
    rw [WordSet.to_entropy]
    simp only [hmt]
    rfl
  constructor
  · rw [hcore]
    by_cases hc : (regroupedBytes ws).getD (mt.entropy_bits / 8) 0 >>>
        (8 - mt.checksum_bits) ≠
        hash ((regroupedBytes ws).take (mt.entropy_bits / 8)) >>> (8 - mt.checksum_bits)
    · rw [if_pos hc]
      exact iff_of_true rfl hc
    · rw [if_neg hc]
      exact iff_of_false (by simp) hc
  · intro h
    rw [hcore, if_neg (fun hne => hne h)]

theorem claim_to_entropy_checksum_witness :
    WordSet.to_entropy (fun _ => 0) ⟨List.replicate 12 ⟨0⟩⟩ =
      .ok ((regroupedBytes ⟨List.replicate 12 ⟨0⟩⟩).take
        (MnemonicType.entropy_bits .Words12 / 8)) :=
  (claim_to_entropy_checksum (fun _ => 0) ⟨List.replicate 12 ⟨0⟩⟩ .Words12 rfl).2 rfl

/-- Claim C3: for a supported entropy length, `from_entropy` yields exactly
12/15/18/21/24 indices as given by the length alone, and the i-th index is the
value of the i-th consecutive 11-bit MSB-first group of the entropy bits
followed by the 8 checksum-byte bits, leftover bits being discarded. -/
theorem claim_from_entropy_structure (hash : List Nat → Nat) (e : List Nat) (ws : WordSet)
    (hb : ∀ b ∈ e, b < 256)
    (hn : e.length = 16 ∨ e.length = 20 ∨ e.length = 24 ∨ e.length = 28 ∨ e.length = 32)
    (hws : WordSet.from_entropy hash e = .ok ws) :
    ws.bits11_set.length = wordCount e.length ∧
    ∀ i, i < wordCount e.length →
      ws.bits11_set.getD i ⟨0⟩ =
        ⟨valBE ((((e.map (natBitsBE 8)).flatten ++ natBitsBE 8 (hash e)).drop
          (11 * i)).take 11)⟩ := by
  have hvalid : 16 ≤ e.length ∧ e.length ≤ 32 ∧ e.length % 4 = 0 := by
    rcases hn with h | h | h | h | h <;> rw [h] <;> norm_num
  rw [from_entropy_ok_eq hash e hvalid] at hws
  injection hws with hwseq
  subst hwseq
  set L : List Bool := (e.map (natBitsBE 8)).flatten ++ natBitsBE 8 (hash e) with hL
  have hLlen : L.length = 8 * e.length + 8 := by
    rw [hL, List.length_append, length_flatten_natBitsBE, length_natBitsBE]
  have hwc : wordCount e.length = L.length / 11 := by
    rcases hn with h | h | h | h | h <;> rw [hLlen, h] <;> rfl
  have hsetlen : ((chunksExact 11 L).map
      (fun c => (⟨chunkToNum 11 c⟩ : Bits11))).length = L.length / 11 := by
    rw [List.length_map, length_chunksExact 11 (by norm_num)]
  constructor
  · rw [hsetlen, hwc]
  · intro i hi
    have hiL : i < L.length / 11 := by rw [← hwc]; exact hi
    have hlen_i : i < (chunksExact 11 L).length := by
      rw [length_chunksExact 11 (by norm_num)]
      exact hiL
    have h1 : (chunksExact 11 L)[i]? = some ((chunksExact 11 L).get ⟨i, hlen_i⟩) :=
      List.getElem?_eq_getElem hlen_i
    have hslice : (chunksExact 11 L).get ⟨i, hlen_i⟩ = (L.drop (11 * i)).take 11 := by
      have hg := getD_chunksExact 11 (by norm_num) L i hiL
      rw [List.getD_eq_getElem?_getD, h1] at hg
      simpa using hg
    have hslicelen : ((L.drop (11 * i)).take 11).length = 11 := by
      rw [List.length_take, List.length_drop]
      have h1' : 11 * (i + 1) ≤ 11 * (L.length / 11) := Nat.mul_le_mul le_rfl hiL
      have h2' : 11 * (L.length / 11) ≤ L.length := by
        rw [Nat.mul_comm]
        exact Nat.div_mul_le_self _ _
      omega
    show ((chunksExact 11 L).map (fun c => (⟨chunkToNum 11 c⟩ : Bits11))).getD i ⟨0⟩ = _
    rw [List.getD_eq_getElem?_getD, List.getElem?_map, h1, hslice]
    show (⟨chunkToNum 11 ((L.drop (11 * i)).take 11)⟩ : Bits11) = _
    rw [chunkToNum_full 11 _ hslicelen]

theorem claim_from_entropy_structure_witness :
    (⟨List.replicate 12 ⟨0⟩⟩ : WordSet).bits11_set.length =
      wordCount (List.replicate 16 (0 : Nat)).length ∧
    ∀ i, i < wordCount (List.replicate 16 (0 : Nat)).length →
      (⟨List.replicate 12 ⟨0⟩⟩ : WordSet).bits11_set.getD i ⟨0⟩ =
        ⟨valBE (((((List.replicate 16 (0 : Nat)).map (natBitsBE 8)).flatten ++
          natBitsBE 8 0).drop (11 * i)).take 11)⟩ :=
  claim_from_entropy_structure (fun _ => 0) (List.replicate 16 0) ⟨List.replicate 12 ⟨0⟩⟩
    (by intro b hb; have := List.eq_of_mem_replicate hb; omega)
    (Or.inl (by simp)) rfl

/-- Claim C1: round trip. For a supported entropy length, encode with
`from_entropy`, render the phrase with `to_phrase` (which succeeds), feed the
rendered words one by one through `add_word` into a fresh `WordSet` using the
same provider — `words` lists, per `Forall₂`, the provider word of each stored
index, exactly the words the phrase is joined from — and `to_entropy` then
returns the original bytes. The provider hypothesis is that word lookup
inverts index lookup on valid indices. -/
theorem claim_roundtrip {W : Type} (hash : List Nat → Nat) (wl : AsWordList W)
    (e : List Nat) (ws : WordSet) (words : List W)
    (hb : ∀ b ∈ e, b < 256) (hh : hash e < 256)
    (hn : e.length = 16 ∨ e.length = 20 ∨ e.length = 24 ∨ e.length = 28 ∨ e.length = 32)
    (hws : WordSet.from_entropy hash e = .ok ws)
    (hwords : List.Forall₂ (fun b w => wl.get_word b = .ok w) ws.bits11_set words)
    (hinv : ∀ (b : Bits11) (w : W), b.val < TOTAL_WORDS → wl.get_word b = .ok w →
      wl.bits11_for_word (wl.as_ref w) = .ok b) :
    (∃ phrase, ws.to_phrase wl = some (.ok phrase)) ∧
    addWords wl WordSet.new (words.map wl.as_ref) = .ok ws ∧
    WordSet.to_entropy hash ws = .ok e := by
  have hvalid : 16 ≤ e.length ∧ e.length ≤ 32 ∧ e.length % 4 = 0 := by
    rcases hn with h | h | h | h | h <;> rw [h] <;> norm_num
  have hvals : ∀ b ∈ ws.bits11_set, b.val < TOTAL_WORDS := by
    intro b hbmem
    have hws' := hws
    rw [from_entropy_ok_eq hash e hvalid] at hws'
    injection hws' with hwseq
    rw [← hwseq] at hbmem
    exact from_entropy_val_lt _ b hbmem
  have hlen24 : ws.bits11_set.length ≤ MAX_SEED_LEN ∧ 0 < ws.bits11_set.length := by
    have hws' := hws
    rw [from_entropy_ok_eq hash e hvalid] at hws'
    injection hws' with hwseq
    rw [← hwseq, List.length_map, length_chunksExact 11 (by norm_num),
      List.length_append, length_flatten_natBitsBE, length_natBitsBE]
    rcases hn with h | h | h | h | h <;> rw [h] <;> exact ⟨by norm_num [MAX_SEED_LEN], by norm_num⟩
  refine ⟨?_, ?_, ?_⟩
  · refine to_phrase_ok wl ws (by
      intro hnil
      rw [hnil] at hlen24
      simp at hlen24) ?_
    exact fun b hbmem => forall₂_exists_left hwords b hbmem
  · have := addWords_append wl ws.bits11_set words []
      (by simpa using hlen24.1) hwords hinv hvals
    rw [List.nil_append] at this
    exact this
  · exact to_entropy_of_from_entropy hash e ws hb hh hn hws

theorem claim_roundtrip_witness :
    (∃ phrase, WordSet.to_phrase unaryWordList ⟨List.replicate 12 ⟨0⟩⟩ = some (.ok phrase)) ∧
    addWords unaryWordList WordSet.new
      ((List.replicate 12 (String.mk [])).map unaryWordList.as_ref) =
      .ok ⟨List.replicate 12 ⟨0⟩⟩ ∧
    WordSet.to_entropy (fun _ => 0) ⟨List.replicate 12 ⟨0⟩⟩ = .ok (List.replicate 16 0) :=
  claim_roundtrip (fun _ => 0) unaryWordList (List.replicate 16 0) ⟨List.replicate 12 ⟨0⟩⟩
    (List.replicate 12 (String.mk []))
    (by intro b hb; have := List.eq_of_mem_replicate hb; omega)
    (by norm_num)
    (Or.inl (by simp)) rfl
    (forall₂_replicate (R := fun b w => unaryWordList.get_word b = Except.ok w)
      ⟨0⟩ (String.mk []) rfl 12)
    unaryWordList_inv
